import Mathlib

/-!
# JobExtractor

A shallow embedding of `JobExtractor.go`: the client pool manager
(`manageClientPoolAndFactory`), the per-URL task (`gatherJobInformation`) and the
`POST /get_jobs` handler of `main`, followed by the properties proved about them.

Conventions of the embedding

* A Go `string` is a Lean `String`; a `rune` is a `Char`.
* A `*http.Client` pointer and a `chan *http.Client` reply channel are represented by
  natural-number identities.  The `n`-th client allocated by the manager gets identity `n`.
* The manager goroutine is a function from the event it receives in its `select` to its
  next state and the list of hand-offs it performs before it returns to the `select`.
* `log.Fatal` terminates the process; a task or handler that reaches it yields `Fatal`.
-/

namespace JobExtractor

/-! ## The client pool manager -/

/-- Identity of a `*http.Client`. -/
abbrev Client := Nat

/-- Identity of a reply channel `chan *http.Client` (one per task). -/
abbrev Chan := Nat

/-- A send `requestQueue[0] <- client` performed by the manager.  `created` records
which `case` of the `switch` performed it: `false` for the client taken from
`clientPool`, `true` for `&http.Client{Transport: transpt}`. -/
structure Handoff where
  ch : Chan
  client : Client
  created : Bool
deriving DecidableEq, Repr

/-- The local variables of `manageClientPoolAndFactory`. -/
structure PoolState where
  requestQueue : List Chan
  clientPool : List Client
  poolCnt : Nat
  loop : Bool
deriving DecidableEq, Repr

/-- What the `select` receives: a client on `releaseHTTPClientCh`, or a reply channel on
`requestHTTPClientCh` (`Option.none` is the `nil` channel, the close signal). -/
inductive Event where
  | release (availableClient : Client)
  | request (requestCh : Option Chan)
deriving DecidableEq, Repr

/-- State at the first evaluation of the outer loop condition: empty queues,
`poolCnt := 0`, `loop := true`. -/
def initPool : PoolState :=
  { requestQueue := [], clientPool := [], poolCnt := 0, loop := true }

/-- The `select` statement. -/
def select (s : PoolState) : Event → PoolState
  | Event.release availableClient =>
      { s with clientPool := s.clientPool ++ [availableClient] }
  | Event.request Option.none => { s with loop := false }
  | Event.request (Option.some requestCh) =>
      { s with requestQueue := s.requestQueue ++ [requestCh] }

/-- The inner loop `for moreClients := true; len(requestQueue) > 0 && moreClients; …` with
its `switch`.  The first argument bounds the number of executions of the loop body; `out`
accumulates the sends performed.  The final value of `moreClients` is returned with the
state, so that the loop condition can be evaluated on the result.  `poolSize` is a
natural number: with a negative `poolSize` the `make` of `clientPool` panics before the
loop is entered. -/
def dispatchLoop (poolSize : Nat) :
    Nat → Bool → PoolState → List Handoff → PoolState × List Handoff × Bool
  | 0, moreClients, s, out => (s, out, moreClients)
  | fuel + 1, moreClients, s, out =>
    match s.requestQueue, moreClients with
    | requestCh :: rest, true =>
      match s.clientPool with
      | c :: cs =>
        -- case len(clientPool) > 0
        dispatchLoop poolSize fuel true
          { s with requestQueue := rest, clientPool := cs }
          (out ++ [{ ch := requestCh, client := c, created := false }])
      | [] =>
        if s.poolCnt < poolSize then
          -- case poolCnt < poolSize
          dispatchLoop poolSize fuel true
            { s with requestQueue := rest, poolCnt := s.poolCnt + 1 }
            (out ++ [{ ch := requestCh, client := s.poolCnt, created := true }])
        else
          -- default
          dispatchLoop poolSize fuel false s out
    | _, _ => (s, out, moreClients)

/-- The condition of the inner loop. -/
def dispatchGuard (s : PoolState) (moreClients : Bool) : Bool :=
  decide (s.requestQueue.length > 0) && moreClients

/-- The condition of the outer loop, `loop || len(requestQueue) > 0`. -/
def running (s : PoolState) : Bool :=
  s.loop || decide (s.requestQueue.length > 0)

/-- One iteration of the outer loop: the `select`, then the inner loop.  When the outer
loop condition is false the manager has returned and receives nothing. -/
def managerStep (poolSize : Nat) (s : PoolState) (e : Event) : PoolState × List Handoff :=
  if running s then
    let s1 := select s e
    let r := dispatchLoop poolSize s1.requestQueue.length true s1 []
    (r.1, r.2.1)
  else (s, [])

/-- The manager run on a sequence of events, from state `s`; returns the final state and
all sends performed, in order. -/
def manageClientPoolAndFactory (poolSize : Nat) :
    PoolState → List Event → PoolState × List Handoff
  | s, [] => (s, [])
  | s, e :: es =>
    let r := managerStep poolSize s e
    let r2 := manageClientPoolAndFactory poolSize r.1 es
    (r2.1, r.2 ++ r2.2)

/-! ## Tasks holding clients -/

/-- The manager together with the clients currently held by tasks.  A task is identified
by its reply channel `getHTTPClientCh`; it holds the client it received on that channel
until it sends it on `releaseHTTPClientCh`. -/
structure Sys where
  pool : PoolState
  held : List (Chan × Client)
deriving DecidableEq, Repr

/-- What tasks do to the manager: `requestHTTPClientCh <- getHTTPClientCh` followed by
`client := <-getHTTPClientCh`; `releaseHTTPClientCh <- client`; and the `nil` request. -/
inductive TaskEvent where
  | acquire (getHTTPClientCh : Chan)
  | release (getHTTPClientCh : Chan) (client : Client)
  | close
deriving DecidableEq, Repr

/-- The (task, client) pairs created by a list of sends. -/
def received (out : List Handoff) : List (Chan × Client) :=
  out.map fun h => (h.ch, h.client)

/-- Initial system: fresh manager, no client held. -/
def initSys : Sys := { pool := initPool, held := [] }

/-- One step of the system.  A step is possible only while the manager is receiving, and
a release only by a task that holds the released client; the client then leaves the
task's hands.  Every send of the manager is received by the task owning the channel. -/
def sysStep (poolSize : Nat) (σ : Sys) : TaskEvent → Option Sys
  | TaskEvent.acquire ch =>
    if running σ.pool then
      let r := managerStep poolSize σ.pool (Event.request (Option.some ch))
      Option.some { pool := r.1, held := σ.held ++ received r.2 }
    else Option.none
  | TaskEvent.release ch c =>
    if running σ.pool ∧ (ch, c) ∈ σ.held then
      let r := managerStep poolSize σ.pool (Event.release c)
      Option.some { pool := r.1, held := σ.held.erase (ch, c) ++ received r.2 }
    else Option.none
  | TaskEvent.close =>
    if running σ.pool then
      let r := managerStep poolSize σ.pool (Event.request Option.none)
      Option.some { pool := r.1, held := σ.held ++ received r.2 }
    else Option.none

/-- The system run on a sequence of task events; `Option.none` when some event of the
sequence cannot happen. -/
def sysRun (poolSize : Nat) : Sys → List TaskEvent → Option Sys
  | σ, [] => Option.some σ
  | σ, e :: es =>
    match sysStep poolSize σ e with
    | Option.some σ1 => sysRun poolSize σ1 es
    | Option.none => Option.none

/-! ## Text helpers used by the task -/

/-- The closure `isOk` of `gatherJobInformation`: `r < 32 || r >= 127`. -/
def isOk (r : Char) : Bool :=
  decide (r.toNat < 32) || decide (r.toNat ≥ 127)

/-- The transformer `transform.RemoveFunc(f)` of `golang.org/x/text/transform` applied to
a string (as documented: removes from the input all runes `r` for which `f(r)` is true):
the runes are visited in order and those not removed are written to the destination. -/
def RemoveFunc (f : Char → Bool) (s : String) : String :=
  ⟨s.data.foldl (fun dst r => if f r then dst else dst ++ [r]) []⟩

/-- Go's `strings.makeCutsetFunc`: `IndexRune(cutset, r) >= 0`. -/
def makeCutsetFunc (cutset : String) (r : Char) : Bool :=
  cutset.data.contains r

/-- Go's `strings.TrimLeftFunc`: drops the leading runes satisfying `f`. -/
def TrimLeftFunc (s : String) (f : Char → Bool) : String :=
  ⟨s.data.dropWhile f⟩

/-- Go's `strings.TrimRightFunc`: drops the trailing runes satisfying `f`. -/
def TrimRightFunc (s : String) (f : Char → Bool) : String :=
  ⟨(s.data.reverse.dropWhile f).reverse⟩

/-- Go's `strings.TrimFunc`: `TrimRightFunc(TrimLeftFunc(s, f), f)`. -/
def TrimFunc (s : String) (f : Char → Bool) : String :=
  TrimRightFunc (TrimLeftFunc s f) f

/-- Go's `strings.Trim` (standard library, as documented: all leading and trailing Unicode
code points contained in `cutset` removed). -/
def Trim (s cutset : String) : String :=
  if s = "" ∨ cutset = "" then s else TrimFunc s (makeCutsetFunc cutset)

/-! ## The task `gatherJobInformation` -/

/-- The `responseNodeType` struct. -/
structure responseNodeType where
  Url : String
  Title : String
  Location : String
  Company : String
deriving DecidableEq, Repr

/-- The `requestNodeType` struct. -/
structure requestNodeType where
  Urls : List String
deriving DecidableEq, Repr

/-- The constant `none = "(none)"`. -/
def none : String := "(none)"

/-- The `log.Fatal` call that ended the process. -/
inductive Fatal where
  | unmarshal
  | transport
  | bodyRead
  | status (StatusCode : Nat)
  | htmlParse
  | xmlParse
deriving DecidableEq, Repr

/-- The part of `*http.Response` the task reads: the status code and the result of
`ioutil.ReadAll(resp.Body)` (`Option.none` when it returns an error). -/
structure Response where
  StatusCode : Nat
  Body : Option String

/-- The library calls whose results one task observes.  `H` is the type of `html` trees,
`X` the type of `xmlpath` trees.  `Option.none` is a non-nil `err`, resp. `ok = false`. -/
structure World (H X : Type) where
  Do : String → Option Response
  Parse : String → Option H
  Render : H → String
  NFKD : String → String
  ParseHTML : String → Option X
  pathString : String → X → Option String

/-- The path of the job title. -/
def titlePath : String := "//*[@id=\"job_header\"]/b/font"

/-- The path of the company. -/
def companyPath : String := "//*[@id=\"job_header\"]/span[1]"

/-- The path of the location. -/
def locationPath : String := "//*[@id=\"job_header\"]/span[2]"

/-- The task, from the moment it has a client: the value of `*me` when the task calls
`Done()`, or the `log.Fatal` it reached.  Requesting and returning the client is the
subject of `sysStep`; the `/html/head/title` query, whose result is only printed, and
the other prints are left out. -/
def gatherJobInformation {H X : Type} (w : World H X) (me : responseNodeType) :
    Except Fatal responseNodeType :=
  match w.Do me.Url with
  | Option.none => Except.error Fatal.transport
  | Option.some resp =>
    match resp.Body with
    | Option.none => Except.error Fatal.bodyRead
    | Option.some body =>
      if resp.StatusCode ≠ 200 then Except.error (Fatal.status resp.StatusCode)
      else
        match w.Parse body with
        | Option.none => Except.error Fatal.htmlParse
        | Option.some root =>
          let fixedHtml := w.Render root
          let fixedUnicodeNFKD := RemoveFunc isOk (w.NFKD fixedHtml)
          match w.ParseHTML fixedUnicodeNFKD with
          | Option.none => Except.error Fatal.xmlParse
          | Option.some xmlroot =>
            let me1 :=
              match w.pathString titlePath xmlroot with
              | Option.some position => { me with Title := Trim position " \n" }
              | Option.none => me
            let me2 :=
              match w.pathString companyPath xmlroot with
              | Option.some company => { me1 with Company := Trim company " \n" }
              | Option.none => me1
            let me3 :=
              match w.pathString locationPath xmlroot with
              | Option.some location => { me2 with Location := Trim location " \n" }
              | Option.none => me2
            Except.ok me3

/-! ## The `POST /get_jobs` handler -/

/-- The JSON value written by `c.JSON`. -/
inductive Body where
  | jobs (restResponse : List responseNodeType)
  | serverError
deriving DecidableEq, Repr

/-- What the handler does: it writes a response, or the process has been ended. -/
inductive Outcome where
  | exited (f : Fatal)
  | response (status : Nat) (body : Body)
deriving DecidableEq, Repr

/-- The zero value of `responseNodeType`, as produced by `make`. -/
def zeroNode : responseNodeType :=
  { Url := "", Title := "", Location := "", Company := "" }

/-- The value `responseNodeType{url, none, none, none}` a slot is initialised with. -/
def initSlot (url : String) : responseNodeType :=
  { Url := url, Title := none, Location := none, Company := none }

/-- The loop `for i := 0; i < urlCnt; i++`: slot `i` is initialised and task `i` started.
Returns `restResponse` and the tasks started. -/
def spawnLoop (Urls : List String) (urlCnt : Nat) : List responseNodeType × List Nat :=
  (List.range urlCnt).foldl
    (fun acc i => (acc.1.set i (initSlot (Urls.getD i "")), acc.2 ++ [i]))
    (List.replicate urlCnt zeroNode, [])

/-- The tasks run to completion in the order `sched`; task `i` works on `&restResponse[i]`
and observes `worlds i`.  The first `log.Fatal` ends the process. -/
def runTasks {H X : Type} (worlds : Nat → World H X) :
    List Nat → List responseNodeType → Except Fatal (List responseNodeType)
  | [], restResponse => Except.ok restResponse
  | i :: sched, restResponse =>
    match restResponse[i]? with
    | Option.none => runTasks worlds sched restResponse
    | Option.some me =>
      match gatherJobInformation (worlds i) me with
      | Except.error f => Except.error f
      | Except.ok me1 => runTasks worlds sched (restResponse.set i me1)

/-- The handler of `POST /get_jobs`.  `decoded` is the result of `json.Unmarshal`
(`Option.none` when `err2 != nil`), `sched` the order in which the started tasks complete
before `requestsAllDoneWG.Wait()` returns.  Returns the tasks started and the outcome. -/
def getJobsHandler {H X : Type} (worlds : Nat → World H X) (decoded : Option requestNodeType)
    (sched : List Nat) : List Nat × Outcome :=
  match decoded with
  | Option.none => ([], Outcome.exited Fatal.unmarshal)
  | Option.some uList =>
    let urlCnt := uList.Urls.length
    if urlCnt > 0 then
      let r := spawnLoop uList.Urls urlCnt
      match runTasks worlds sched r.1 with
      | Except.error f => (r.2, Outcome.exited f)
      | Except.ok restResponse => (r.2, Outcome.response 200 (Body.jobs restResponse))
    else ([], Outcome.response 500 Body.serverError)

/-- A mock page: the matches of the three queries are given, every fetch succeeds with
status 200. -/
def mockWorld (title company location : Option String) : World Unit Unit :=
  { Do := fun _ => Option.some { StatusCode := 200, Body := Option.some "<html/>" }
    Parse := fun _ => Option.some ()
    Render := fun _ => "<html/>"
    NFKD := fun s => s
    ParseHTML := fun _ => Option.some ()
    pathString := fun pstr _ =>
      if pstr = titlePath then title
      else if pstr = companyPath then company
      else if pstr = locationPath then location
      else Option.none }

/-- A world in which the fetch fails in `client.Do`. -/
def deadWorld : World Unit Unit :=
  { mockWorld Option.none Option.none Option.none with Do := fun _ => Option.none }

/-- A world in which the server answers `404`. -/
def notFoundWorld : World Unit Unit :=
  { mockWorld Option.none Option.none Option.none with
    Do := fun _ => Option.some { StatusCode := 404, Body := Option.some "" } }

/-- Decoding of the character reference `&#13;` in a text, as an HTML parser does it.
The first argument is the number of characters still to skip after a reference has been
recognised at its `&`. -/
def decodeCR : Nat → List Char → List Char
  | _, [] => []
  | skip + 1, _ :: rest => decodeCR skip rest
  | 0, c :: rest =>
    if c = '&' ∧ rest.take 4 = ['#', '1', '3', ';'] then '\r' :: decodeCR 4 rest
    else c :: decodeCR 0 rest

/-- A world whose queries read the sanitised page: the page is the text of the company
element, it is rendered as it was fetched, and the company query returns the sanitised
text with its `&#13;` references decoded. -/
def textWorld (page : String) : World String String :=
  { Do := fun _ => Option.some { StatusCode := 200, Body := Option.some page }
    Parse := fun body => Option.some body
    Render := fun root => root
    NFKD := fun s => s
    ParseHTML := fun s => Option.some s
    pathString := fun pstr xmlroot =>
      if pstr = companyPath then Option.some ⟨decodeCR 0 xmlroot.data⟩ else Option.none }

/-! ## Notions used in the statements -/

/-- The reply channels sent to the manager in a sequence of events, in order. -/
def requestsOf : List Event → List Chan
  | [] => []
  | Event.request (Option.some requestCh) :: es => requestCh :: requestsOf es
  | _ :: es => requestsOf es

/-- Every client is accounted for exactly once: a created client is either in
`clientPool` or in the hands of a task; nothing else is anywhere. -/
def SysInv (C : Nat) (σ : Sys) : Prop :=
  σ.pool.poolCnt ≤ C ∧
  ∀ c : Nat, σ.pool.clientPool.count c + (σ.held.map Prod.snd).count c =
    if c < σ.pool.poolCnt then 1 else 0

/-- The result of task `i` of a batch, run on the slot the handler initialised for it. -/
def taskResult {H X : Type} (worlds : Nat → World H X) (Urls : List String) (i : Nat) :
    Except Fatal responseNodeType :=
  gatherJobInformation (worlds i) (initSlot (Urls.getD i ""))

/-! # Properties -/

/-! ## Lemmas on the inner loop -/

theorem dispatchLoop_false (C fuel : Nat) (s : PoolState) (out : List Handoff) :
    dispatchLoop C fuel false s out = (s, out, false) := by
  cases fuel with
  | zero => rfl
  | succ n =>
    cases hq : s.requestQueue <;> simp [dispatchLoop, hq]

theorem dispatchLoop_nil (C fuel : Nat) (m : Bool) (s : PoolState) (out : List Handoff)
    (hq : s.requestQueue = []) : dispatchLoop C fuel m s out = (s, out, m) := by
  cases fuel with
  | zero => rfl
  | succ n => simp [dispatchLoop, hq]

theorem dispatchLoop_reuse (C fuel : Nat) (s : PoolState) (out : List Handoff)
    (ch : Chan) (rest : List Chan) (c : Client) (cs : List Client)
    (hq : s.requestQueue = ch :: rest) (hp : s.clientPool = c :: cs) :
    dispatchLoop C (fuel + 1) true s out =
      dispatchLoop C fuel true { s with requestQueue := rest, clientPool := cs }
        (out ++ [{ ch := ch, client := c, created := false }]) := by
  simp [dispatchLoop, hq, hp]

theorem dispatchLoop_create (C fuel : Nat) (s : PoolState) (out : List Handoff)
    (ch : Chan) (rest : List Chan)
    (hq : s.requestQueue = ch :: rest) (hp : s.clientPool = []) (hc : s.poolCnt < C) :
    dispatchLoop C (fuel + 1) true s out =
      dispatchLoop C fuel true { s with requestQueue := rest, poolCnt := s.poolCnt + 1 }
        (out ++ [{ ch := ch, client := s.poolCnt, created := true }]) := by
  simp [dispatchLoop, hq, hp, hc]

theorem dispatchLoop_default (C fuel : Nat) (s : PoolState) (out : List Handoff)
    (ch : Chan) (rest : List Chan)
    (hq : s.requestQueue = ch :: rest) (hp : s.clientPool = []) (hc : ¬ s.poolCnt < C) :
    dispatchLoop C (fuel + 1) true s out = (s, out, false) := by
  simp [dispatchLoop, hq, hp, hc, dispatchLoop_false]

/-- Case analysis on one execution of the loop body, as an induction principle for
properties of the result that are preserved by each `case` of the `switch`. -/
theorem dispatchLoop_induct (C : Nat)
    (P : PoolState → List Handoff → PoolState × List Handoff × Bool → Prop)
    (hstop : ∀ s out m, P s out (s, out, m))
    (hreuse : ∀ s out ch rest c cs r, s.requestQueue = ch :: rest → s.clientPool = c :: cs →
      P { s with requestQueue := rest, clientPool := cs }
        (out ++ [{ ch := ch, client := c, created := false }]) r → P s out r)
    (hcreate : ∀ s out ch rest r, s.requestQueue = ch :: rest → s.clientPool = [] →
      s.poolCnt < C →
      P { s with requestQueue := rest, poolCnt := s.poolCnt + 1 }
        (out ++ [{ ch := ch, client := s.poolCnt, created := true }]) r → P s out r) :
    ∀ (fuel : Nat) (m : Bool) (s : PoolState) (out : List Handoff),
      P s out (dispatchLoop C fuel m s out) := by
  intro fuel
  induction fuel with
  | zero => intro m s out; exact hstop s out m
  | succ n ih =>
    intro m s out
    cases m with
    | false => rw [dispatchLoop_false]; exact hstop s out false
    | true =>
      cases hq : s.requestQueue with
      | nil => rw [dispatchLoop_nil C _ _ s out hq]; exact hstop s out true
      | cons ch rest =>
        cases hp : s.clientPool with
        | cons c cs =>
          rw [dispatchLoop_reuse C n s out ch rest c cs hq hp]
          exact hreuse s out ch rest c cs _ hq hp (ih true _ _)
        | nil =>
          by_cases hc : s.poolCnt < C
          · rw [dispatchLoop_create C n s out ch rest hq hp hc]
            exact hcreate s out ch rest _ hq hp hc (ih true _ _)
          · rw [dispatchLoop_default C n s out ch rest hq hp hc]
            exact hstop s out false

theorem dispatchLoop_poolCnt (C fuel : Nat) (m : Bool) (s : PoolState) (out : List Handoff) :
    s.poolCnt ≤ (dispatchLoop C fuel m s out).1.poolCnt ∧
    (dispatchLoop C fuel m s out).1.poolCnt ≤ max s.poolCnt C := by
  refine dispatchLoop_induct C
    (fun s _ r => s.poolCnt ≤ r.1.poolCnt ∧ r.1.poolCnt ≤ max s.poolCnt C) ?_ ?_ ?_ fuel m s out
  · intro s out m; simp
  · intro s out ch rest c cs r _ _ h; simpa using h
  · intro s out ch rest r _ _ hc h
    simp only at h
    omega

theorem dispatchLoop_fifo (C fuel : Nat) (m : Bool) (s : PoolState) (out : List Handoff) :
    (dispatchLoop C fuel m s out).2.1.map Handoff.ch ++
        (dispatchLoop C fuel m s out).1.requestQueue =
      out.map Handoff.ch ++ s.requestQueue := by
  refine dispatchLoop_induct C
    (fun s out r => r.2.1.map Handoff.ch ++ r.1.requestQueue =
      out.map Handoff.ch ++ s.requestQueue) ?_ ?_ ?_ fuel m s out
  · intro s out m; rfl
  · intro s out ch rest c cs r hq _ h; simp only at h; rw [h, hq]; simp
  · intro s out ch rest r hq _ _ h; simp only at h; rw [h, hq]; simp

theorem dispatchLoop_created (C fuel : Nat) (m : Bool) (s : PoolState) (out : List Handoff) :
    ((dispatchLoop C fuel m s out).2.1.filter Handoff.created).length + s.poolCnt =
      (out.filter Handoff.created).length + (dispatchLoop C fuel m s out).1.poolCnt := by
  refine dispatchLoop_induct C
    (fun s out r => (r.2.1.filter Handoff.created).length + s.poolCnt =
      (out.filter Handoff.created).length + r.1.poolCnt) ?_ ?_ ?_ fuel m s out
  · intro s out m; simp
  · intro s out ch rest c cs r _ _ h; simp at h; omega
  · intro s out ch rest r _ _ _ h; simp at h; omega

theorem dispatchLoop_created_lt (C fuel : Nat) (m : Bool) (s : PoolState)
    (out : List Handoff) :
    ∀ h ∈ (dispatchLoop C fuel m s out).2.1, h ∈ out ∨ h.created = false ∨ h.client < C := by
  refine dispatchLoop_induct C
    (fun _ out r => ∀ h ∈ r.2.1, h ∈ out ∨ h.created = false ∨ h.client < C) ?_ ?_ ?_
    fuel m s out
  · intro s out m h hh
    exact Or.inl hh
  · intro s out ch rest c cs r _ _ ih h hh
    rcases ih h hh with h1 | h1
    · rcases List.mem_append.mp h1 with h2 | h2
      · exact Or.inl h2
      · rw [List.mem_singleton] at h2
        exact Or.inr (Or.inl (by rw [h2]))
    · exact Or.inr h1
  · intro s out ch rest r _ _ hc ih h hh
    rcases ih h hh with h1 | h1
    · rcases List.mem_append.mp h1 with h2 | h2
      · exact Or.inl h2
      · rw [List.mem_singleton] at h2
        exact Or.inr (Or.inr (by rw [h2]; exact hc))
    · exact Or.inr h1

theorem dispatchLoop_clients (C fuel : Nat) (m : Bool) (s : PoolState) (out : List Handoff)
    (c : Nat) :
    s.poolCnt ≤ (dispatchLoop C fuel m s out).1.poolCnt ∧
    (dispatchLoop C fuel m s out).1.clientPool.count c +
        ((dispatchLoop C fuel m s out).2.1.map Handoff.client).count c =
      s.clientPool.count c + (out.map Handoff.client).count c +
        (if s.poolCnt ≤ c ∧ c < (dispatchLoop C fuel m s out).1.poolCnt then 1 else 0) := by
  refine dispatchLoop_induct C
    (fun s out r => s.poolCnt ≤ r.1.poolCnt ∧
      r.1.clientPool.count c + (r.2.1.map Handoff.client).count c =
      s.clientPool.count c + (out.map Handoff.client).count c +
        (if s.poolCnt ≤ c ∧ c < r.1.poolCnt then 1 else 0)) ?_ ?_ ?_ fuel m s out
  · intro s out m
    refine ⟨le_refl _, ?_⟩
    have h0 : ¬ (s.poolCnt ≤ c ∧ c < s.poolCnt) := fun h => absurd h.2 (Nat.not_lt.mpr h.1)
    simp [h0]
  · intro s out ch rest c1 cs r _ hp h
    obtain ⟨h1, h2⟩ := h
    refine ⟨h1, ?_⟩
    simp only at h1 h2
    rw [h2, hp]
    simp only [List.map_append, List.map_cons, List.map_nil, List.count_append,
      List.count_cons, List.count_nil]
    omega
  · intro s out ch rest r _ hp _ h
    obtain ⟨h1, h2⟩ := h
    simp only at h1 h2
    refine ⟨Nat.le_of_succ_le h1, ?_⟩
    rw [h2, hp]
    simp only [List.map_append, List.map_cons, List.map_nil, List.count_append,
      List.count_cons, List.count_nil, beq_iff_eq]
    have h1n : s.poolCnt + 1 ≤ r.1.poolCnt := h1
    split_ifs <;> omega

theorem dispatchLoop_exit (C : Nat) :
    ∀ (fuel : Nat) (m : Bool) (s : PoolState) (out : List Handoff),
      s.requestQueue.length ≤ fuel →
      dispatchGuard (dispatchLoop C fuel m s out).1 (dispatchLoop C fuel m s out).2.2 = false ∧
      (m = true → (dispatchLoop C fuel m s out).1.requestQueue = [] ∨
        ((dispatchLoop C fuel m s out).1.clientPool = [] ∧
          C ≤ (dispatchLoop C fuel m s out).1.poolCnt)) := by
  intro fuel
  induction fuel with
  | zero =>
    intro m s out h
    have hq : s.requestQueue = [] := List.length_eq_zero.mp (Nat.le_zero.mp h)
    simp [dispatchLoop, dispatchGuard, hq]
  | succ n ih =>
    intro m s out h
    cases m with
    | false => rw [dispatchLoop_false]; simp [dispatchGuard]
    | true =>
      cases hq : s.requestQueue with
      | nil => rw [dispatchLoop_nil C _ _ s out hq]; simp [dispatchGuard, hq]
      | cons ch rest =>
        have hlen : rest.length ≤ n := by rw [hq] at h; simpa using h
        cases hp : s.clientPool with
        | cons c cs =>
          rw [dispatchLoop_reuse C n s out ch rest c cs hq hp]
          exact ih true _ _ hlen
        | nil =>
          by_cases hc : s.poolCnt < C
          · rw [dispatchLoop_create C n s out ch rest hq hp hc]
            exact ih true _ _ hlen
          · rw [dispatchLoop_default C n s out ch rest hq hp hc]
            simp [dispatchGuard, hp]
            omega

theorem dispatchLoop_fuel (C : Nat) :
    ∀ (fuel extra : Nat) (m : Bool) (s : PoolState) (out : List Handoff),
      s.requestQueue.length ≤ fuel →
      dispatchLoop C (fuel + extra) m s out = dispatchLoop C fuel m s out := by
  intro fuel
  induction fuel with
  | zero =>
    intro extra m s out h
    have hq : s.requestQueue = [] := List.length_eq_zero.mp (Nat.le_zero.mp h)
    rw [dispatchLoop_nil C _ _ s out hq, dispatchLoop_nil C _ _ s out hq]
  | succ n ih =>
    intro extra m s out h
    have e : n + 1 + extra = (n + extra) + 1 := by omega
    rw [e]
    cases m with
    | false => rw [dispatchLoop_false, dispatchLoop_false]
    | true =>
      cases hq : s.requestQueue with
      | nil => rw [dispatchLoop_nil C _ _ s out hq, dispatchLoop_nil C _ _ s out hq]
      | cons ch rest =>
        have hlen : rest.length ≤ n := by rw [hq] at h; simpa using h
        cases hp : s.clientPool with
        | cons c cs =>
          rw [dispatchLoop_reuse C _ s out ch rest c cs hq hp,
            dispatchLoop_reuse C _ s out ch rest c cs hq hp]
          exact ih extra true _ _ hlen
        | nil =>
          by_cases hc : s.poolCnt < C
          · rw [dispatchLoop_create C _ s out ch rest hq hp hc,
              dispatchLoop_create C _ s out ch rest hq hp hc]
            exact ih extra true _ _ hlen
          · rw [dispatchLoop_default C _ s out ch rest hq hp hc,
              dispatchLoop_default C _ s out ch rest hq hp hc]
/-! ## Lemmas on the manager -/

theorem select_poolCnt (s : PoolState) (e : Event) : (select s e).poolCnt = s.poolCnt := by
  cases e with
  | release c => rfl
  | request r => cases r <;> rfl

theorem managerStep_not_running (C : Nat) (s : PoolState) (e : Event)
    (h : running s = false) : managerStep C s e = (s, []) := by
  simp [managerStep, h]

theorem managerStep_running (C : Nat) (s : PoolState) (e : Event) (h : running s = true) :
    managerStep C s e =
      ((dispatchLoop C (select s e).requestQueue.length true (select s e) []).1,
       (dispatchLoop C (select s e).requestQueue.length true (select s e) []).2.1) := by
  simp [managerStep, h]

theorem manage_not_running (C : Nat) (events : List Event) (s : PoolState)
    (h : running s = false) : manageClientPoolAndFactory C s events = (s, []) := by
  induction events with
  | nil => rfl
  | cons e es ih => simp [manageClientPoolAndFactory, managerStep_not_running C s e h, ih]

theorem managerStep_poolCnt (C : Nat) (s : PoolState) (e : Event) :
    s.poolCnt ≤ (managerStep C s e).1.poolCnt ∧
    (managerStep C s e).1.poolCnt ≤ max s.poolCnt C := by
  cases h : running s with
  | false => rw [managerStep_not_running C s e h]; simp
  | true =>
    rw [managerStep_running C s e h]
    have := dispatchLoop_poolCnt C (select s e).requestQueue.length true (select s e) []
    rw [select_poolCnt] at this
    exact this

theorem managerStep_created (C : Nat) (s : PoolState) (e : Event) :
    ((managerStep C s e).2.filter Handoff.created).length + s.poolCnt =
      (managerStep C s e).1.poolCnt := by
  cases h : running s with
  | false => rw [managerStep_not_running C s e h]; simp
  | true =>
    rw [managerStep_running C s e h]
    have := dispatchLoop_created C (select s e).requestQueue.length true (select s e) []
    rw [select_poolCnt] at this
    simpa using this

theorem managerStep_created_lt (C : Nat) (s : PoolState) (e : Event) :
    ∀ h ∈ (managerStep C s e).2, h.created = true → h.client < C := by
  intro h hh hc
  cases hr : running s with
  | false =>
    rw [managerStep_not_running C s e hr] at hh
    exact absurd hh (by simp)
  | true =>
    rw [managerStep_running C s e hr] at hh
    rcases dispatchLoop_created_lt C _ true (select s e) [] h hh with h1 | h1 | h1
    · exact absurd h1 (by simp)
    · rw [hc] at h1
      exact absurd h1 (by simp)
    · exact h1

theorem manage_created_lt (C : Nat) (events : List Event) :
    ∀ s : PoolState, ∀ h ∈ (manageClientPoolAndFactory C s events).2,
      h.created = true → h.client < C := by
  induction events with
  | nil =>
    intro s h hh
    exact absurd hh (by simp [manageClientPoolAndFactory])
  | cons e es ih =>
    intro s h hh hc
    simp only [manageClientPoolAndFactory, List.mem_append] at hh
    rcases hh with h1 | h1
    · exact managerStep_created_lt C s e h h1 hc
    · exact ih _ h h1 hc

theorem manage_poolCnt (C : Nat) (events : List Event) :
    ∀ s : PoolState,
      s.poolCnt ≤ (manageClientPoolAndFactory C s events).1.poolCnt ∧
      (manageClientPoolAndFactory C s events).1.poolCnt ≤ max s.poolCnt C ∧
      ((manageClientPoolAndFactory C s events).2.filter Handoff.created).length + s.poolCnt =
        (manageClientPoolAndFactory C s events).1.poolCnt := by
  induction events with
  | nil => intro s; simp [manageClientPoolAndFactory]
  | cons e es ih =>
    intro s
    have h1 := managerStep_poolCnt C s e
    have h2 := managerStep_created C s e
    have h3 := ih (managerStep C s e).1
    simp only [manageClientPoolAndFactory, List.filter_append, List.length_append]
    omega

theorem select_fifo (s : PoolState) (e : Event) :
    (select s e).requestQueue = s.requestQueue ++ requestsOf [e] := by
  cases e with
  | release c => simp [select, requestsOf]
  | request r => cases r <;> simp [select, requestsOf]

theorem requestsOf_cons (e : Event) (es : List Event) :
    requestsOf (e :: es) = requestsOf [e] ++ requestsOf es := by
  cases e with
  | release c => simp [requestsOf]
  | request r => cases r <;> simp [requestsOf]

theorem manage_fifo (C : Nat) (events : List Event) :
    ∀ s : PoolState, ∃ ignored,
      ((manageClientPoolAndFactory C s events).2.map Handoff.ch ++
        (manageClientPoolAndFactory C s events).1.requestQueue) ++ ignored =
      s.requestQueue ++ requestsOf events := by
  induction events with
  | nil => intro s; exact ⟨[], by simp [manageClientPoolAndFactory, requestsOf]⟩
  | cons e es ih =>
    intro s
    cases h : running s with
    | false =>
      rw [manage_not_running C _ s h]
      exact ⟨requestsOf (e :: es), by simp⟩
    | true =>
      obtain ⟨ign, hi⟩ := ih (managerStep C s e).1
      refine ⟨ign, ?_⟩
      have hstep : (managerStep C s e).2.map Handoff.ch ++ (managerStep C s e).1.requestQueue =
          s.requestQueue ++ requestsOf [e] := by
        rw [managerStep_running C s e h]
        have := dispatchLoop_fifo C (select s e).requestQueue.length true (select s e) []
        rw [this, select_fifo]
        simp
      simp only [manageClientPoolAndFactory, List.map_append, List.append_assoc]
      rw [requestsOf_cons e es]
      have hi2 : List.map Handoff.ch (manageClientPoolAndFactory C (managerStep C s e).1 es).2 ++
          ((manageClientPoolAndFactory C (managerStep C s e).1 es).1.requestQueue ++ ign) =
          (managerStep C s e).1.requestQueue ++ requestsOf es := by
        simpa using hi
      rw [hi2, ← List.append_assoc, hstep, List.append_assoc]

/-- The sends of the inner loop in closed form: the pending requests are paired, in order,
first with the available clients and then with the clients that may still be created. -/
theorem dispatchLoop_closed (C : Nat) :
    ∀ (fuel : Nat) (s : PoolState) (out : List Handoff),
      s.requestQueue.length ≤ fuel →
      (dispatchLoop C fuel true s out).2.1 =
        out ++
          List.zipWith (fun ch c => ({ ch := ch, client := c, created := false } : Handoff))
            s.requestQueue s.clientPool ++
          List.zipWith (fun ch c => ({ ch := ch, client := c, created := true } : Handoff))
            (s.requestQueue.drop s.clientPool.length)
            (List.range' s.poolCnt (C - s.poolCnt)) := by
  intro fuel
  induction fuel with
  | zero =>
    intro s out h
    have hq : s.requestQueue = [] := List.length_eq_zero.mp (Nat.le_zero.mp h)
    simp [dispatchLoop, hq]
  | succ n ih =>
    intro s out h
    cases hq : s.requestQueue with
    | nil => rw [dispatchLoop_nil C _ _ s out hq]; simp
    | cons ch rest =>
      have hlen : rest.length ≤ n := by rw [hq] at h; simpa using h
      cases hp : s.clientPool with
      | cons c cs =>
        rw [dispatchLoop_reuse C n s out ch rest c cs hq hp, ih _ _ hlen]
        simp
      | nil =>
        by_cases hc : s.poolCnt < C
        · rw [dispatchLoop_create C n s out ch rest hq hp hc, ih _ _ hlen]
          have e : C - s.poolCnt = (C - (s.poolCnt + 1)) + 1 := by omega
          rw [e, List.range'_succ]
          simp [hp]
        · rw [dispatchLoop_default C n s out ch rest hq hp hc]
          have e : C - s.poolCnt = 0 := by omega
          simp [e]

/-! ## Lemmas on the system of manager and tasks -/

theorem received_clients (out : List Handoff) :
    (received out).map Prod.snd = out.map Handoff.client := by
  simp [received]

theorem managerStep_clients (C : Nat) (s : PoolState) (e : Event) (h : running s = true)
    (c : Nat) :
    s.poolCnt ≤ (managerStep C s e).1.poolCnt ∧
    (managerStep C s e).1.clientPool.count c +
        ((managerStep C s e).2.map Handoff.client).count c =
      (select s e).clientPool.count c +
        (if s.poolCnt ≤ c ∧ c < (managerStep C s e).1.poolCnt then 1 else 0) := by
  rw [managerStep_running C s e h]
  have := dispatchLoop_clients C (select s e).requestQueue.length true (select s e) [] c
  rw [select_poolCnt] at this
  simpa using this

theorem sysInv_init (C : Nat) : SysInv C initSys := by
  refine ⟨Nat.zero_le _, ?_⟩
  intro c
  simp [initSys, initPool]

theorem sysStep_inv (C : Nat) (σ σ1 : Sys) (e : TaskEvent) (hinv : SysInv C σ)
    (hstep : sysStep C σ e = Option.some σ1) : SysInv C σ1 := by
  obtain ⟨hC, hcount⟩ := hinv
  have hmax : ∀ ev, (managerStep C σ.pool ev).1.poolCnt ≤ C := by
    intro ev
    have := (managerStep_poolCnt C σ.pool ev).2
    omega
  cases e with
  | acquire ch =>
    simp only [sysStep] at hstep
    split at hstep
    · rename_i hr
      injection hstep with hstep
      subst hstep
      refine ⟨hmax _, ?_⟩
      intro c
      have hm := managerStep_clients C σ.pool (Event.request (Option.some ch)) hr c
      have hc := hcount c
      simp only [List.map_append, List.count_append, received_clients]
      simp only [select] at hm
      split_ifs at hm hc ⊢ <;> omega
    · exact absurd hstep (by simp)
  | close =>
    simp only [sysStep] at hstep
    split at hstep
    · rename_i hr
      injection hstep with hstep
      subst hstep
      refine ⟨hmax _, ?_⟩
      intro c
      have hm := managerStep_clients C σ.pool (Event.request Option.none) hr c
      have hc := hcount c
      simp only [List.map_append, List.count_append, received_clients]
      simp only [select] at hm
      split_ifs at hm hc ⊢ <;> omega
    · exact absurd hstep (by simp)
  | release ch c0 =>
    simp only [sysStep] at hstep
    split at hstep
    · rename_i hr
      injection hstep with hstep
      subst hstep
      refine ⟨hmax _, ?_⟩
      intro c
      have hm := managerStep_clients C σ.pool (Event.release c0) hr.1 c
      have hc := hcount c
      have hperm : (σ.held.map Prod.snd).Perm (c0 :: (σ.held.erase (ch, c0)).map Prod.snd) := by
        obtain ⟨l1, l2, _, e1, e2⟩ := List.exists_erase_eq hr.2
        rw [e2, e1]
        simp
      have hcnt := hperm.count_eq c
      simp only [List.map_append, List.count_append, received_clients]
      simp only [select, List.count_append, List.count_cons, List.count_nil, beq_iff_eq] at hm
      simp only [List.count_cons, beq_iff_eq] at hcnt
      split_ifs at hm hc hcnt ⊢ <;> omega
    · exact absurd hstep (by simp)

theorem sysRun_inv (C : Nat) (events : List TaskEvent) :
    ∀ σ σ1 : Sys, SysInv C σ → sysRun C σ events = Option.some σ1 → SysInv C σ1 := by
  induction events with
  | nil =>
    intro σ σ1 hinv h
    simp only [sysRun] at h
    injection h with h
    subst h
    exact hinv
  | cons e es ih =>
    intro σ σ1 hinv h
    simp only [sysRun] at h
    cases hs : sysStep C σ e with
    | none => rw [hs] at h; exact absurd h (by simp)
    | some σ2 =>
      rw [hs] at h
      exact ih σ2 σ1 (sysStep_inv C σ σ2 e hinv hs) h

theorem length_le_of_count (l : List Nat) (n : Nat)
    (h : ∀ c : Nat, l.count c ≤ if c < n then 1 else 0) : l.length ≤ n := by
  have hnd : l.Nodup := by
    rw [List.nodup_iff_count_le_one]
    intro c
    have := h c
    split_ifs at this <;> omega
  have hsub : l.toFinset ⊆ Finset.range n := by
    intro c hc
    rw [List.mem_toFinset] at hc
    have hpos : 0 < l.count c := List.count_pos_iff.mpr hc
    have := h c
    rw [Finset.mem_range]
    by_contra hlt
    simp [hlt] at this
    omega
  have hcard := Finset.card_le_card hsub
  rw [List.toFinset_card_of_nodup hnd, Finset.card_range] at hcard
  exact hcard
/-! ## Lemmas on the text helpers -/

theorem removeLoop_eq_filter (f : Char → Bool) (l : List Char) :
    ∀ dst : List Char,
      l.foldl (fun dst r => if f r then dst else dst ++ [r]) dst =
        dst ++ l.filter (fun r => !f r) := by
  induction l with
  | nil => intro dst; simp
  | cons r rs ih =>
    intro dst
    rw [List.foldl_cons, ih]
    cases hf : f r <;> simp [hf]

theorem RemoveFunc_data (f : Char → Bool) (s : String) :
    (RemoveFunc f s).data = s.data.filter (fun r => !f r) := by
  simp [RemoveFunc, removeLoop_eq_filter]

theorem not_isOk_iff (r : Char) : (!isOk r) = decide (32 ≤ r.toNat ∧ r.toNat ≤ 126) := by
  unfold isOk
  by_cases h1 : r.toNat < 32 <;> by_cases h2 : r.toNat ≥ 127 <;> simp [h1, h2] <;> omega

theorem dropWhile_split (f : Char → Bool) (l : List Char) :
    ∃ pre, l = pre ++ l.dropWhile f ∧ pre.all f = true := by
  refine ⟨l.takeWhile f, (List.takeWhile_append_dropWhile f l).symm, ?_⟩
  rw [List.all_eq_true]
  intro c hc
  exact List.mem_takeWhile_imp hc

theorem dropWhile_head (f : Char → Bool) (l : List Char) (c : Char)
    (h : (l.dropWhile f).head? = Option.some c) : f c = false := by
  have := List.head?_dropWhile_not f l
  rw [h] at this
  simpa using this

theorem Trim_data (s cutset : String) :
    (Trim s cutset).data =
      (((s.data.dropWhile (makeCutsetFunc cutset)).reverse.dropWhile
        (makeCutsetFunc cutset)).reverse) ∨ cutset = "" := by
  unfold Trim
  by_cases hc : cutset = ""
  · exact Or.inr hc
  · left
    by_cases hs : s = ""
    · subst hs
      simp
    · simp [hs, hc, TrimFunc, TrimRightFunc, TrimLeftFunc]
theorem makeCutsetFunc_space_newline (c : Char) :
    makeCutsetFunc " \n" c = true ↔ (c = ' ' ∨ c = '\n') := by
  have hd : (" \n" : String).data = [' ', '\n'] := rfl
  unfold makeCutsetFunc
  rw [hd]
  simp

theorem Trim_space_newline_data (s : String) :
    (Trim s " \n").data =
      ((s.data.dropWhile (makeCutsetFunc " \n")).reverse.dropWhile
        (makeCutsetFunc " \n")).reverse := by
  rcases Trim_data s " \n" with h | h
  · exact h
  · exact absurd h (by decide)

theorem Trim_split (s : String) :
    ∃ pre suf : List Char, s.data = pre ++ (Trim s " \n").data ++ suf ∧
      (∀ c ∈ pre, c = ' ' ∨ c = '\n') ∧ (∀ c ∈ suf, c = ' ' ∨ c = '\n') := by
  obtain ⟨pre, h1, hpre⟩ := dropWhile_split (makeCutsetFunc " \n") s.data
  obtain ⟨suf, h2, hsuf⟩ := dropWhile_split (makeCutsetFunc " \n")
    (s.data.dropWhile (makeCutsetFunc " \n")).reverse
  refine ⟨pre, suf.reverse, ?_, ?_, ?_⟩
  · rw [Trim_space_newline_data]
    have h3 := congrArg List.reverse h2
    rw [List.reverse_reverse, List.reverse_append] at h3
    rw [List.append_assoc, ← h3]
    exact h1
  · intro c hc
    rw [List.all_eq_true] at hpre
    exact (makeCutsetFunc_space_newline c).mp (hpre c hc)
  · intro c hc
    rw [List.all_eq_true] at hsuf
    exact (makeCutsetFunc_space_newline c).mp (hsuf c (List.mem_reverse.mp hc))

theorem Trim_last (s : String) (c : Char)
    (h : (Trim s " \n").data.getLast? = Option.some c) : c ≠ ' ' ∧ c ≠ '\n' := by
  rw [Trim_space_newline_data, List.getLast?_reverse] at h
  have hf := dropWhile_head _ _ c h
  have := (makeCutsetFunc_space_newline c).not.mp (by simp [hf])
  exact not_or.mp this

theorem Trim_first (s : String) (c : Char)
    (h : (Trim s " \n").data.head? = Option.some c) : c ≠ ' ' ∧ c ≠ '\n' := by
  obtain ⟨suf, h2, _⟩ := dropWhile_split (makeCutsetFunc " \n")
    (s.data.dropWhile (makeCutsetFunc " \n")).reverse
  have h3 := congrArg List.reverse h2
  rw [List.reverse_reverse, List.reverse_append, ← Trim_space_newline_data] at h3
  have h4 : (s.data.dropWhile (makeCutsetFunc " \n")).head? = Option.some c := by
    rw [h3]
    cases ht : (Trim s " \n").data with
    | nil => rw [ht] at h; exact absurd h (by simp)
    | cons a as => rw [ht] at h; simpa using h
  have hf := dropWhile_head _ _ c h4
  have := (makeCutsetFunc_space_newline c).not.mp (by simp [hf])
  exact not_or.mp this

/-! ## Lemmas on the task -/

theorem gather_ok {H X : Type} (w : World H X) (me : responseNodeType) (resp : Response)
    (body : String) (root : H) (xmlroot : X)
    (hdo : w.Do me.Url = Option.some resp) (hbody : resp.Body = Option.some body)
    (hstatus : resp.StatusCode = 200) (hparse : w.Parse body = Option.some root)
    (hxml : w.ParseHTML (RemoveFunc isOk (w.NFKD (w.Render root))) = Option.some xmlroot) :
    gatherJobInformation w me = Except.ok
      { Url := me.Url
        Title := ((w.pathString titlePath xmlroot).map (fun m => Trim m " \n")).getD me.Title
        Location :=
          ((w.pathString locationPath xmlroot).map (fun m => Trim m " \n")).getD me.Location
        Company :=
          ((w.pathString companyPath xmlroot).map (fun m => Trim m " \n")).getD me.Company } := by
  unfold gatherJobInformation
  simp only [hdo, hbody, hstatus, hparse, hxml]
  cases w.pathString titlePath xmlroot <;> cases w.pathString companyPath xmlroot <;>
    cases w.pathString locationPath xmlroot <;> simp

/-- The task either reaches a `log.Fatal` that is determined by its URL, or every step up
to the `xmlpath` tree succeeds. -/
theorem gather_cases {H X : Type} (w : World H X) (url : String) :
    (∃ f, ∀ me : responseNodeType, me.Url = url →
      gatherJobInformation w me = Except.error f) ∨
    (∃ resp body root xmlroot, w.Do url = Option.some resp ∧ resp.Body = Option.some body ∧
      resp.StatusCode = 200 ∧ w.Parse body = Option.some root ∧
      w.ParseHTML (RemoveFunc isOk (w.NFKD (w.Render root))) = Option.some xmlroot) := by
  cases hdo : w.Do url with
  | none =>
    exact Or.inl ⟨Fatal.transport, fun me hu => by simp [gatherJobInformation, hu, hdo]⟩
  | some resp =>
    cases hb : resp.Body with
    | none =>
      exact Or.inl ⟨Fatal.bodyRead, fun me hu => by simp [gatherJobInformation, hu, hdo, hb]⟩
    | some body =>
      by_cases hs : resp.StatusCode = 200
      · cases hp : w.Parse body with
        | none =>
          exact Or.inl ⟨Fatal.htmlParse, fun me hu => by
            simp [gatherJobInformation, hu, hdo, hb, hs, hp]⟩
        | some root =>
          cases hx : w.ParseHTML (RemoveFunc isOk (w.NFKD (w.Render root))) with
          | none =>
            exact Or.inl ⟨Fatal.xmlParse, fun me hu => by
              simp [gatherJobInformation, hu, hdo, hb, hs, hp, hx]⟩
          | some xmlroot =>
            exact Or.inr ⟨resp, body, root, xmlroot, rfl, hb, hs, hp, hx⟩
      · exact Or.inl ⟨Fatal.status resp.StatusCode, fun me hu => by
          simp [gatherJobInformation, hu, hdo, hb, hs]⟩

theorem gather_url {H X : Type} (w : World H X) (me me1 : responseNodeType)
    (h : gatherJobInformation w me = Except.ok me1) : me1.Url = me.Url := by
  rcases gather_cases w me.Url with ⟨f, hf⟩ | ⟨resp, body, root, xmlroot, h1, h2, h3, h4, h5⟩
  · rw [hf me rfl] at h
    exact absurd h (by simp)
  · rw [gather_ok w me resp body root xmlroot h1 h2 h3 h4 h5] at h
    injection h with h
    rw [← h]

/-- A `log.Fatal` of the task depends on the URL only, not on the other fields of the
slot. -/
theorem gather_error_url {H X : Type} (w : World H X) (me me1 : responseNodeType) (f : Fatal)
    (hurl : me1.Url = me.Url) (h : gatherJobInformation w me = Except.error f) :
    gatherJobInformation w me1 = Except.error f := by
  rcases gather_cases w me.Url with ⟨f1, hf⟩ | ⟨resp, body, root, xmlroot, h1, h2, h3, h4, h5⟩
  · rw [hf me rfl] at h
    rw [hf me1 hurl]
    exact h
  · rw [gather_ok w me resp body root xmlroot h1 h2 h3 h4 h5] at h
    exact absurd h (by simp)

/-! ## Lemmas on the handler -/

theorem spawnLoop_take (Urls : List String) :
    ∀ k : Nat, k ≤ Urls.length →
      (List.range k).foldl
        (fun (acc : List responseNodeType × List Nat) i =>
          (acc.1.set i (initSlot (Urls.getD i "")), acc.2 ++ [i]))
        (List.replicate Urls.length zeroNode, []) =
      ((Urls.take k).map initSlot ++ List.replicate (Urls.length - k) zeroNode,
        List.range k) := by
  intro k
  induction k with
  | zero => intro _; simp
  | succ k ih =>
    intro hk
    have hk1 : k < Urls.length := hk
    rw [List.range_succ, List.foldl_append, ih (Nat.le_of_lt hk1)]
    simp only [List.foldl_cons, List.foldl_nil]
    congr 1
    have e : Urls.length - k = (Urls.length - (k + 1)) + 1 := by omega
    have hlen : ((Urls.take k).map initSlot).length = k := by
      simp [Nat.min_eq_left (Nat.le_of_lt hk1)]
    rw [e, List.replicate_succ, List.set_append_right _ _ (by rw [hlen]), hlen]
    simp only [Nat.sub_self, List.set_cons_zero]
    rw [List.take_succ, List.map_append, List.append_assoc]
    congr 1
    rw [List.getElem?_eq_getElem hk1]
    simp [initSlot, List.getD_eq_getElem?_getD, List.getElem?_eq_getElem hk1]

theorem spawnLoop_eq (Urls : List String) :
    spawnLoop Urls Urls.length = (Urls.map initSlot, List.range Urls.length) := by
  unfold spawnLoop
  rw [spawnLoop_take Urls Urls.length (le_refl _)]
  simp

theorem runTasks_urls {H X : Type} (worlds : Nat → World H X) (sched : List Nat) :
    ∀ restResponse rest : List responseNodeType,
      runTasks worlds sched restResponse = Except.ok rest →
      rest.map responseNodeType.Url = restResponse.map responseNodeType.Url := by
  induction sched with
  | nil =>
    intro restResponse rest h
    simp only [runTasks] at h
    injection h with h
    rw [h]
  | cons i sched ih =>
    intro restResponse rest h
    simp only [runTasks] at h
    split at h
    · exact ih _ _ h
    · rename_i me hme
      split at h
      · exact absurd h (by simp)
      · rename_i me1 hg
        rw [ih _ _ h, List.map_set, gather_url _ _ _ hg]
        have hi : i < restResponse.length := (List.getElem?_eq_some_iff.mp hme).1
        have hv : restResponse[i] = me := (List.getElem?_eq_some_iff.mp hme).2
        apply List.ext_getElem?
        intro j
        by_cases hj : j = i
        · subst hj
          simp [List.getElem?_set, hi, hv]
        · simp [List.getElem?_set, Ne.symm hj]

theorem runTasks_ok {H X : Type} (worlds : Nat → World H X) (f : Nat → responseNodeType)
    (sched : List Nat) :
    ∀ restResponse : List responseNodeType, sched.Nodup →
      (∀ i ∈ sched, ∃ me, restResponse[i]? = Option.some me ∧
        gatherJobInformation (worlds i) me = Except.ok (f i)) →
      ∃ rest, runTasks worlds sched restResponse = Except.ok rest ∧
        rest.length = restResponse.length ∧
        ∀ i : Nat, rest[i]? = if i ∈ sched then
          (if i < restResponse.length then Option.some (f i) else Option.none)
          else restResponse[i]? := by
  induction sched with
  | nil =>
    intro restResponse _ _
    exact ⟨restResponse, rfl, rfl, by simp⟩
  | cons i sched ih =>
    intro restResponse hnd hok
    obtain ⟨me, hme, hg⟩ := hok i (List.mem_cons_self _ _)
    have hi : i < restResponse.length := (List.getElem?_eq_some_iff.mp hme).1
    have hnd2 := List.nodup_cons.mp hnd
    have hok2 : ∀ j ∈ sched, ∃ me, (restResponse.set i (f i))[j]? = Option.some me ∧
        gatherJobInformation (worlds j) me = Except.ok (f j) := by
      intro j hj
      have hne : i ≠ j := fun e => hnd2.1 (e ▸ hj)
      obtain ⟨mj, hmj, hgj⟩ := hok j (List.mem_cons_of_mem _ hj)
      exact ⟨mj, by simp [List.getElem?_set, hne, hmj], hgj⟩
    obtain ⟨rest, hr, hlen, hget⟩ := ih (restResponse.set i (f i)) hnd2.2 hok2
    refine ⟨rest, ?_, ?_, ?_⟩
    · simp only [runTasks, hme, hg]
      exact hr
    · simpa using hlen
    · intro j
      rw [hget j]
      by_cases hj : j = i
      · subst hj
        simp [hnd2.1, hi, List.getElem?_set]
      · have hne : i ≠ j := fun e => hj e.symm
        simp [List.getElem?_set, hne, hj]

theorem runTasks_error {H X : Type} (worlds : Nat → World H X) (j : Nat) (e : Fatal)
    (sched : List Nat) :
    ∀ restResponse : List responseNodeType, j ∈ sched →
      (∃ me, restResponse[j]? = Option.some me ∧
        gatherJobInformation (worlds j) me = Except.error e) →
      ∃ e1, runTasks worlds sched restResponse = Except.error e1 := by
  induction sched with
  | nil => intro _ hj; exact absurd hj (by simp)
  | cons i sched ih =>
    intro restResponse hj hfail
    obtain ⟨mj, hmj, hgj⟩ := hfail
    by_cases hji : j = i
    · subst hji
      exact ⟨e, by simp only [runTasks, hmj, hgj]⟩
    · have hjs : j ∈ sched := by
        rcases List.mem_cons.mp hj with h | h
        · exact absurd h hji
        · exact h
      simp only [runTasks]
      split
      · exact ih restResponse hjs ⟨mj, hmj, hgj⟩
      · rename_i me hme
        split
        · rename_i f hf; exact ⟨f, rfl⟩
        · rename_i me1 hg
          refine ih _ hjs ⟨mj, ?_, hgj⟩
          have hne : i ≠ j := fun e => hji e.symm
          simp [List.getElem?_set, hne, hmj]
theorem initSlots_getElem? (Urls : List String) (i : Nat) (hi : i < Urls.length) :
    (Urls.map initSlot)[i]? = Option.some (initSlot (Urls.getD i "")) := by
  simp [List.getD_eq_getElem?_getD, List.getElem?_eq_getElem hi]

theorem handler_ok {H X : Type} (worlds : Nat → World H X) (Urls : List String)
    (sched : List Nat) (f : Nat → responseNodeType) (hN : 0 < Urls.length)
    (hsched : sched.Perm (List.range Urls.length))
    (hok : ∀ i, i < Urls.length → taskResult worlds Urls i = Except.ok (f i)) :
    getJobsHandler worlds (Option.some { Urls := Urls }) sched =
      (List.range Urls.length,
        Outcome.response 200 (Body.jobs ((List.range Urls.length).map f))) := by
  have hmem : ∀ i, i ∈ sched ↔ i < Urls.length := by
    intro i
    rw [hsched.mem_iff, List.mem_range]
  have hnd : sched.Nodup := hsched.nodup_iff.mpr (List.nodup_range _)
  obtain ⟨rest, hr, hlen, hget⟩ := runTasks_ok worlds f sched (Urls.map initSlot) hnd
    (fun i hi => ⟨_, initSlots_getElem? Urls i ((hmem i).mp hi), hok i ((hmem i).mp hi)⟩)
  have hrest : rest = (List.range Urls.length).map f := by
    apply List.ext_getElem?
    intro i
    rw [hget i]
    by_cases hi : i < Urls.length
    · simp [(hmem i).mpr hi, hi, List.getElem?_range]
    · have hni : i ∉ sched := fun h => hi ((hmem i).mp h)
      have h1 : (List.range Urls.length)[i]? = Option.none :=
        List.getElem?_eq_none (by simpa using Nat.le_of_not_lt hi)
      have h2 : (Urls.map initSlot)[i]? = Option.none :=
        List.getElem?_eq_none (by simpa using Nat.le_of_not_lt hi)
      rw [if_neg hni, h2, List.getElem?_map, h1]
      rfl
  simp only [getJobsHandler, hN, if_true, spawnLoop_eq, hr, hrest]

theorem handler_fatal {H X : Type} (worlds : Nat → World H X) (Urls : List String)
    (sched : List Nat) (j : Nat) (e : Fatal) (hj : j < Urls.length) (hsched : j ∈ sched)
    (hfail : taskResult worlds Urls j = Except.error e) :
    ∃ e1, getJobsHandler worlds (Option.some { Urls := Urls }) sched =
      (List.range Urls.length, Outcome.exited e1) := by
  obtain ⟨e1, he⟩ := runTasks_error worlds j e sched (Urls.map initSlot) hsched
    ⟨_, initSlots_getElem? Urls j hj, hfail⟩
  have hN : 0 < Urls.length := Nat.lt_of_le_of_lt (Nat.zero_le _) hj
  exact ⟨e1, by simp only [getJobsHandler, hN, if_true, spawnLoop_eq, he]⟩

theorem handler_empty {H X : Type} (worlds : Nat → World H X) (uList : requestNodeType)
    (sched : List Nat) (h0 : uList.Urls.length = 0) :
    getJobsHandler worlds (Option.some uList) sched =
      ([], Outcome.response 500 Body.serverError) := by
  simp [getJobsHandler, h0]
/-! ## The pool manager: bound, exclusivity, order, work conservation -/

/-- C2: for every capacity `C` and every finite sequence of events processed by
`manageClientPoolAndFactory` from its initial state, `poolCnt` is at most `C`, it equals
the number of sends made by the creating `case`, and neither an iteration of the manager
nor any number of executions of the body of its inner loop decrements it or raises it
above the larger of its old value and `C`; every client sent by the creating `case` was
created while `poolCnt < C` (its identity, the value of `poolCnt` then, is below `C`). -/
theorem poolCnt_le_poolSize (C : Nat) (events : List Event) :
    (manageClientPoolAndFactory C initPool events).1.poolCnt ≤ C ∧
    ((manageClientPoolAndFactory C initPool events).2.filter Handoff.created).length =
      (manageClientPoolAndFactory C initPool events).1.poolCnt ∧
    (∀ (s : PoolState) (e : Event), s.poolCnt ≤ (managerStep C s e).1.poolCnt) ∧
    (∀ (s : PoolState) (e : Event), (managerStep C s e).1.poolCnt ≤ max s.poolCnt C) ∧
    (∀ (n : Nat) (m : Bool) (s : PoolState) (out : List Handoff),
      s.poolCnt ≤ (dispatchLoop C n m s out).1.poolCnt ∧
      (dispatchLoop C n m s out).1.poolCnt ≤ max s.poolCnt C) ∧
    (∀ h ∈ (manageClientPoolAndFactory C initPool events).2,
      h.created = true → h.client < C) := by
  obtain ⟨_, h2, h3⟩ := manage_poolCnt C events initPool
  refine ⟨?_, ?_, fun s e => (managerStep_poolCnt C s e).1,
    fun s e => (managerStep_poolCnt C s e).2,
    fun n m s out => dispatchLoop_poolCnt C n m s out,
    manage_created_lt C events initPool⟩
  · have h0 : initPool.poolCnt = 0 := rfl
    rw [h0] at h2
    simpa using h2
  · have h0 : initPool.poolCnt = 0 := rfl
    rw [h0] at h3
    simpa using h3

/-- C3: in every state reachable by acquires, releases of held clients and the close
signal, each created client occurs exactly once among the available clients and the
clients held by tasks, no other client occurs anywhere, and the number of clients held
is at most the number created, which is at most `C`. -/
theorem client_held_by_at_most_one (C : Nat) (events : List TaskEvent) (σ : Sys)
    (h : sysRun C initSys events = Option.some σ) :
    (∀ c : Nat, c < σ.pool.poolCnt →
      σ.pool.clientPool.count c + (σ.held.map Prod.snd).count c = 1) ∧
    (∀ c : Nat, σ.pool.poolCnt ≤ c →
      σ.pool.clientPool.count c + (σ.held.map Prod.snd).count c = 0) ∧
    σ.held.length ≤ σ.pool.poolCnt ∧ σ.pool.poolCnt ≤ C ∧ σ.held.length ≤ C := by
  obtain ⟨hC, hcount⟩ := sysRun_inv C events initSys σ (sysInv_init C) h
  have hlen : σ.held.length ≤ σ.pool.poolCnt := by
    have := length_le_of_count (σ.held.map Prod.snd) σ.pool.poolCnt (by
      intro c
      have := hcount c
      omega)
    simpa using this
  refine ⟨?_, ?_, hlen, hC, Nat.le_trans hlen hC⟩
  · intro c hc
    have := hcount c
    rw [if_pos hc] at this
    exact this
  · intro c hc
    have := hcount c
    rw [if_neg (Nat.not_lt.mpr hc)] at this
    exact this

/-- Witness for C3: with one client, the second task gets the client once the first has
released it. -/
theorem client_held_by_at_most_one_witness :
    sysRun 1 initSys [TaskEvent.acquire 5, TaskEvent.acquire 6, TaskEvent.release 5 0] =
      Option.some
        { pool := { requestQueue := [], clientPool := [], poolCnt := 1, loop := true }
          held := [(6, 0)] } ∧
    ([(6, 0)] : List (Chan × Client)).length ≤ 1 :=
  ⟨by decide,
    (client_held_by_at_most_one 1
      [TaskEvent.acquire 5, TaskEvent.acquire 6, TaskEvent.release 5 0]
      { pool := { requestQueue := [], clientPool := [], poolCnt := 1, loop := true }
        held := [(6, 0)] } (by decide)).2.2.2.2⟩

/-- C4: the reply channels served so far, followed by those still pending, are a prefix
of the reply channels in the order the manager was sent them, so the served ones are a
prefix too; and from an exhausted pool, requests `A`, `B` and one release of `c` give
`c` to `A` and leave `B` pending. -/
theorem pending_served_in_arrival_order (C : Nat) (events : List Event) (A B : Chan)
    (c : Client) :
    ((manageClientPoolAndFactory C initPool events).2.map Handoff.ch ++
      (manageClientPoolAndFactory C initPool events).1.requestQueue) <+: requestsOf events ∧
    (manageClientPoolAndFactory C initPool events).2.map Handoff.ch <+: requestsOf events ∧
    manageClientPoolAndFactory C
        { requestQueue := [], clientPool := [], poolCnt := C, loop := true }
        [Event.request (Option.some A), Event.request (Option.some B), Event.release c] =
      ({ requestQueue := [B], clientPool := [], poolCnt := C, loop := true },
        [{ ch := A, client := c, created := false }]) := by
  obtain ⟨ign, hi⟩ := manage_fifo C events initPool
  have h0 : initPool.requestQueue = [] := rfl
  rw [h0, List.nil_append] at hi
  refine ⟨⟨ign, hi⟩, ⟨(manageClientPoolAndFactory C initPool events).1.requestQueue ++ ign,
    by rw [← List.append_assoc]; exact hi⟩, ?_⟩
  simp [manageClientPoolAndFactory, managerStep, running, select, dispatchLoop]

/-- C10: from any state the inner loop leaves through its condition after at most
`len(requestQueue)` executions of its body (more executions allowed change nothing); its
sends pair the pending requests in order first with the available clients, then with
the clients `poolCnt, …, poolSize - 1` it creates; and when it is left, and so whenever
the manager returns to the `select`, the pending queue is empty or no client is
available and `poolCnt ≥ poolSize`. -/
theorem dispatch_terminates_work_conserving (C : Nat) (s : PoolState) (e : Event)
    (extra : Nat) :
    dispatchGuard (dispatchLoop C s.requestQueue.length true s []).1
      (dispatchLoop C s.requestQueue.length true s []).2.2 = false ∧
    dispatchLoop C (s.requestQueue.length + extra) true s [] =
      dispatchLoop C s.requestQueue.length true s [] ∧
    (dispatchLoop C s.requestQueue.length true s []).2.1 =
      List.zipWith (fun ch c => ({ ch := ch, client := c, created := false } : Handoff))
          s.requestQueue s.clientPool ++
        List.zipWith (fun ch c => ({ ch := ch, client := c, created := true } : Handoff))
          (s.requestQueue.drop s.clientPool.length)
          (List.range' s.poolCnt (C - s.poolCnt)) ∧
    ((dispatchLoop C s.requestQueue.length true s []).1.requestQueue = [] ∨
      ((dispatchLoop C s.requestQueue.length true s []).1.clientPool = [] ∧
        C ≤ (dispatchLoop C s.requestQueue.length true s []).1.poolCnt)) ∧
    ((managerStep C s e).1.requestQueue = [] ∨
      ((managerStep C s e).1.clientPool = [] ∧ C ≤ (managerStep C s e).1.poolCnt)) := by
  have hexit := dispatchLoop_exit C s.requestQueue.length true s [] (le_refl _)
  refine ⟨hexit.1, dispatchLoop_fuel C _ extra true s [] (le_refl _), ?_, hexit.2 rfl, ?_⟩
  · have := dispatchLoop_closed C s.requestQueue.length s [] (le_refl _)
    simpa using this
  · cases hr : running s with
    | false =>
      rw [managerStep_not_running C s e hr]
      left
      show s.requestQueue = []
      simp only [running, Bool.or_eq_false_iff, decide_eq_false_iff_not] at hr
      exact List.length_eq_zero.mp (Nat.eq_zero_of_not_pos hr.2)
    | true =>
      rw [managerStep_running C s e hr]
      exact (dispatchLoop_exit C _ true (select s e) [] (le_refl _)).2 rfl

/-! ## The task: sanitising, trimming, fields -/

/-- C7: the removal filter returns exactly the characters of its input with code point
in `32..126`, in their original order: nothing outside the range survives and nothing
inside it is dropped. -/
theorem sanitise_keeps_printable_ascii (s : String) :
    (RemoveFunc isOk s).data =
      s.data.filter (fun c => decide (32 ≤ c.toNat ∧ c.toNat ≤ 126)) ∧
    (∀ c ∈ (RemoveFunc isOk s).data, 32 ≤ c.toNat ∧ c.toNat ≤ 126) ∧
    (RemoveFunc isOk s).data.Sublist s.data ∧
    (∀ c : Char, 32 ≤ c.toNat → c.toNat ≤ 126 →
      (RemoveFunc isOk s).data.count c = s.data.count c) := by
  have heq : (RemoveFunc isOk s).data =
      s.data.filter (fun c => decide (32 ≤ c.toNat ∧ c.toNat ≤ 126)) := by
    rw [RemoveFunc_data]
    congr 1
    funext c
    exact not_isOk_iff c
  refine ⟨heq, ?_, ?_, ?_⟩
  · intro c hc
    rw [heq, List.mem_filter] at hc
    simpa using hc.2
  · rw [heq]
    exact List.filter_sublist _
  · intro c h1 h2
    rw [heq, List.count_filter]
    simp [h1, h2]

/-- C6, as amended: the value stored for a match is the match without its leading and
trailing spaces and newlines: what is cut off at either end consists of spaces and
newlines only, the rest is unchanged, the stored value neither begins nor ends with a
space or a newline, and it has no character that the match does not have; the three
matches of the example give the three trimmed values, and a task whose queries all match
stores the `Trim` of each match. -/
theorem trim_removes_space_and_newline (s : String) :
    (∃ pre suf : List Char, s.data = pre ++ (Trim s " \n").data ++ suf ∧
      (∀ c ∈ pre, c = ' ' ∨ c = '\n') ∧ (∀ c ∈ suf, c = ' ' ∨ c = '\n')) ∧
    (∀ c : Char, (Trim s " \n").data.head? = Option.some c → c ≠ ' ' ∧ c ≠ '\n') ∧
    (∀ c : Char, (Trim s " \n").data.getLast? = Option.some c → c ≠ ' ' ∧ c ≠ '\n') ∧
    (∀ c ∈ (Trim s " \n").data, c ∈ s.data) ∧
    Trim " Acme Corp\n" " \n" = "Acme Corp" ∧
    Trim "\nAustin, TX " " \n" = "Austin, TX" ∧
    Trim " Senior Engineer " " \n" = "Senior Engineer" ∧
    (∀ url title company location : String,
      gatherJobInformation
          (mockWorld (Option.some title) (Option.some company) (Option.some location))
          (initSlot url) =
        Except.ok
          { Url := url, Title := Trim title " \n", Location := Trim location " \n",
            Company := Trim company " \n" }) := by
  refine ⟨Trim_split s, Trim_first s, Trim_last s, ?_, by decide, by decide, by decide, ?_⟩
  · intro c hc
    obtain ⟨pre, suf, hs, _, _⟩ := Trim_split s
    rw [hs]
    exact List.mem_append_left _ (List.mem_append_right _ hc)
  · intro url title company location
    rw [gather_ok (mockWorld (Option.some title) (Option.some company) (Option.some location))
      (initSlot url) { StatusCode := 200, Body := Option.some "<html/>" } "<html/>" () ()
      rfl rfl rfl rfl rfl]
    rfl

/-- Counterexample to C6 as stated: a company element whose text begins and ends with
the reference `&#13;` passes the sanitiser unchanged, the query returns the text with a
carriage return at either end, and the task stores it with both carriage returns. -/
theorem trim_keeps_carriage_return :
    RemoveFunc isOk "&#13;Acme Corp&#13;" = "&#13;Acme Corp&#13;" ∧
    gatherJobInformation (textWorld "&#13;Acme Corp&#13;") (initSlot "u") =
      Except.ok { Url := "u", Title := "(none)", Location := "(none)",
                  Company := "\rAcme Corp\r" } ∧
    ("\rAcme Corp\r" : String).data.head? = Option.some '\r' ∧
    ("\rAcme Corp\r" : String).data.getLast? = Option.some '\r' :=
  ⟨by decide, rfl, rfl, rfl⟩

/-- C5: when the page has been fetched with status 200 and parsed, the task returns, and
each of `Title`, `Company`, `Location` is the trimmed match of its own query, or
`"(none)"` when that query has no match, whatever the other two queries find. -/
theorem fields_decided_independently {H X : Type} (w : World H X) (url : String)
    (resp : Response) (body : String) (root : H) (xmlroot : X)
    (hdo : w.Do url = Option.some resp) (hbody : resp.Body = Option.some body)
    (hstatus : resp.StatusCode = 200) (hparse : w.Parse body = Option.some root)
    (hxml : w.ParseHTML (RemoveFunc isOk (w.NFKD (w.Render root))) = Option.some xmlroot) :
    gatherJobInformation w (initSlot url) = Except.ok
      { Url := url
        Title := ((w.pathString titlePath xmlroot).map (fun m => Trim m " \n")).getD "(none)"
        Location :=
          ((w.pathString locationPath xmlroot).map (fun m => Trim m " \n")).getD "(none)"
        Company :=
          ((w.pathString companyPath xmlroot).map (fun m => Trim m " \n")).getD "(none)" } :=
  gather_ok w (initSlot url) resp body root xmlroot hdo hbody hstatus hparse hxml

/-- Witness for C5: a page without the location element. -/
theorem fields_decided_independently_witness :
    gatherJobInformation
        (mockWorld (Option.some " Senior Engineer ") (Option.some " Acme Corp\n") Option.none)
        (initSlot "http://example.org/job") =
      Except.ok { Url := "http://example.org/job", Title := "Senior Engineer",
                  Location := "(none)", Company := "Acme Corp" } :=
  (fields_decided_independently
    (mockWorld (Option.some " Senior Engineer ") (Option.some " Acme Corp\n") Option.none)
    "http://example.org/job" { StatusCode := 200, Body := Option.some "<html/>" } "<html/>"
    () () rfl rfl rfl rfl rfl).trans rfl
/-! ## The handler: alignment, empty batch, failing task -/

/-- C1: for a batch of `N ≥ 1` URLs whose tasks all complete, in whatever order they
complete and whatever they extract, the handler answers 200 with an array of length `N`
whose `i`-th `Url` is the `i`-th URL of the request; slot `i` holds the result of task
`i`, `gatherJobInformation` never changes `Url`, and after any tasks have completed, in
any order, the array has length `N` and its `Url`s are those of the request. -/
theorem response_index_aligned {H X : Type} (worlds : Nat → World H X) (Urls : List String)
    (sched : List Nat) (hN : 1 ≤ Urls.length) (hsched : sched.Perm (List.range Urls.length))
    (hdone : ∀ i, i < Urls.length → ∃ me, taskResult worlds Urls i = Except.ok me) :
    ∃ rest : List responseNodeType,
      getJobsHandler worlds (Option.some { Urls := Urls }) sched =
        (List.range Urls.length, Outcome.response 200 (Body.jobs rest)) ∧
      rest.length = Urls.length ∧
      rest.map responseNodeType.Url = Urls ∧
      (∀ i : Nat, (rest[i]?).map responseNodeType.Url = Urls[i]?) ∧
      (∀ (i : Nat) (me : responseNodeType), rest[i]? = Option.some me →
        taskResult worlds Urls i = Except.ok me) ∧
      (∀ (w : World H X) (me me1 : responseNodeType),
        gatherJobInformation w me = Except.ok me1 → me1.Url = me.Url) ∧
      (∀ (done : List Nat) (partialResponse : List responseNodeType),
        runTasks worlds done (spawnLoop Urls Urls.length).1 = Except.ok partialResponse →
        partialResponse.length = Urls.length ∧
        partialResponse.map responseNodeType.Url = Urls) := by
  have hok : ∀ i, i < Urls.length →
      taskResult worlds Urls i = Except.ok
        (match taskResult worlds Urls i with
          | Except.ok me => me
          | Except.error _ => zeroNode) := by
    intro i hi
    obtain ⟨me, hme⟩ := hdone i hi
    rw [hme]
  have hurls : ((List.range Urls.length).map
      (fun i => match taskResult worlds Urls i with
        | Except.ok me => me
        | Except.error _ => zeroNode)).map responseNodeType.Url = Urls := by
    apply List.ext_getElem?
    intro i
    by_cases hi : i < Urls.length
    · obtain ⟨me, hme⟩ := hdone i hi
      have hu := gather_url (worlds i) (initSlot (Urls.getD i "")) me hme
      simp only [List.getElem?_map, List.getElem?_range hi, Option.map_some', hme, hu]
      simp [initSlot, List.getD_eq_getElem?_getD, List.getElem?_eq_getElem hi]
    · rw [List.getElem?_eq_none (by simpa using Nat.le_of_not_lt hi),
        List.getElem?_eq_none (Nat.le_of_not_lt hi)]
  have hpart : ∀ (done : List Nat) (partialResponse : List responseNodeType),
      runTasks worlds done (spawnLoop Urls Urls.length).1 = Except.ok partialResponse →
      partialResponse.length = Urls.length ∧
      partialResponse.map responseNodeType.Url = Urls := by
    intro done partialResponse hrun
    have hu := runTasks_urls worlds done _ _ hrun
    rw [spawnLoop_eq] at hu
    have hmap : (Urls.map initSlot).map responseNodeType.Url = Urls := by
      rw [List.map_map]
      exact List.map_id _
    rw [hmap] at hu
    refine ⟨?_, hu⟩
    have := congrArg List.length hu
    simpa using this
  refine ⟨_, handler_ok worlds Urls sched _ hN hsched hok, by simp, hurls, ?_, ?_,
    fun w me me1 h => gather_url w me me1 h, hpart⟩
  · intro i
    rw [← List.getElem?_map, hurls]
  · intro i me hget
    rw [List.getElem?_map] at hget
    by_cases hi : i < Urls.length
    · rw [List.getElem?_range hi] at hget
      obtain ⟨me1, hme⟩ := hdone i hi
      simp only [Option.map_some', Option.some.injEq, hme] at hget
      rw [hme, hget]
    · rw [List.getElem?_eq_none (by simpa using Nat.le_of_not_lt hi)] at hget
      exact absurd hget (by simp)

/-- Witness for C1: two pages fetched and parsed, the second task completing first. -/
theorem response_index_aligned_witness :
    1 ≤ ["a", "b"].length ∧ [1, 0].Perm (List.range ["a", "b"].length) ∧
    ∃ rest : List responseNodeType,
      getJobsHandler (fun _ => mockWorld (Option.some "T") Option.none (Option.some " L "))
          (Option.some { Urls := ["a", "b"] }) [1, 0] =
        (List.range ["a", "b"].length, Outcome.response 200 (Body.jobs rest)) ∧
      rest.length = ["a", "b"].length ∧
      rest.map responseNodeType.Url = ["a", "b"] := by
  have h := response_index_aligned
    (fun _ => mockWorld (Option.some "T") Option.none (Option.some " L ")) ["a", "b"] [1, 0]
    (by decide) (by decide)
    (fun i _ => ⟨{ Url := ["a", "b"].getD i "", Title := "T", Location := "L",
                   Company := "(none)" }, rfl⟩)
  obtain ⟨rest, h1, h2, h3, _⟩ := h
  exact ⟨by decide, by decide, rest, h1, h2, h3⟩

/-- C8, as amended: an empty URL list is answered with the 500 body and no task is
started; and, the started tasks completing in the order `sched`, a 200 response is
written exactly when the list is non-empty and no task reaches `log.Fatal`. -/
theorem empty_batch_rejected {H X : Type} (worlds : Nat → World H X)
    (uList : requestNodeType) (sched : List Nat)
    (hsched : sched.Perm (List.range uList.Urls.length)) :
    (uList.Urls.length = 0 →
      getJobsHandler worlds (Option.some uList) sched =
        ([], Outcome.response 500 Body.serverError)) ∧
    ((∃ body, (getJobsHandler worlds (Option.some uList) sched).2 =
        Outcome.response 200 body) ↔
      (0 < uList.Urls.length ∧
        ∀ i, i < uList.Urls.length → ∃ me, taskResult worlds uList.Urls i = Except.ok me)) := by
  refine ⟨handler_empty worlds uList sched, ?_, ?_⟩
  · rintro ⟨body, hb⟩
    have hN : 0 < uList.Urls.length := by
      by_contra h0
      rw [handler_empty worlds uList sched (Nat.eq_zero_of_not_pos h0)] at hb
      exact absurd hb (by simp)
    refine ⟨hN, ?_⟩
    intro i hi
    cases ht : taskResult worlds uList.Urls i with
    | ok me => exact ⟨me, rfl⟩
    | error e =>
      obtain ⟨e1, he⟩ := handler_fatal worlds uList.Urls sched i e hi
        (hsched.mem_iff.mpr (List.mem_range.mpr hi)) ht
      rw [he] at hb
      exact absurd hb (by simp)
  · rintro ⟨hN, hdone⟩
    have hok : ∀ i, i < uList.Urls.length →
        taskResult worlds uList.Urls i = Except.ok
          (match taskResult worlds uList.Urls i with
            | Except.ok me => me
            | Except.error _ => zeroNode) := by
      intro i hi
      obtain ⟨me, hme⟩ := hdone i hi
      rw [hme]
    exact ⟨_, by rw [handler_ok worlds uList.Urls sched _ hN hsched hok]⟩

/-- Witness for C8: the empty batch. -/
theorem empty_batch_rejected_witness :
    ([] : List Nat).Perm (List.range ([] : List String).length) ∧
    getJobsHandler (fun _ => mockWorld Option.none Option.none Option.none)
        (Option.some { Urls := [] }) [] =
      ([], Outcome.response 500 Body.serverError) :=
  ⟨by decide,
    (empty_batch_rejected (fun _ => mockWorld Option.none Option.none Option.none)
      { Urls := [] } [] (by decide)).1 rfl⟩

/-- Counterexample to C8 as stated: a list of one URL whose server answers 404 gets no
200 response, the process ends in `log.Fatalf`. -/
theorem nonempty_batch_without_response :
    0 < (["u"] : List String).length ∧
    getJobsHandler (fun _ => notFoundWorld) (Option.some { Urls := ["u"] }) [0] =
      ([0], Outcome.exited (Fatal.status 404)) := by
  decide

/-- C9, as amended: in a batch of `N ≥ 1` URLs a task whose fetch or parse fails ends
the process, so that no response is written; a task fails exactly through a transport
error, a body read error, a status other than 200 or a parse error, each reaching its
`log.Fatal`; when no task fails the response holds in slot `i` the result of task `i`. -/
theorem task_failure_ends_process {H X : Type} (worlds : Nat → World H X)
    (Urls : List String) (sched : List Nat) (hN : 1 ≤ Urls.length)
    (hsched : sched.Perm (List.range Urls.length)) :
    (∀ (j : Nat) (e : Fatal), j < Urls.length → taskResult worlds Urls j = Except.error e →
      ∃ e1, getJobsHandler worlds (Option.some { Urls := Urls }) sched =
        (List.range Urls.length, Outcome.exited e1)) ∧
    (∀ f : Nat → responseNodeType,
      (∀ i, i < Urls.length → taskResult worlds Urls i = Except.ok (f i)) →
      getJobsHandler worlds (Option.some { Urls := Urls }) sched =
        (List.range Urls.length,
          Outcome.response 200 (Body.jobs ((List.range Urls.length).map f)))) ∧
    (∀ (w : World H X) (me : responseNodeType),
      (w.Do me.Url = Option.none →
        gatherJobInformation w me = Except.error Fatal.transport) ∧
      (∀ resp, w.Do me.Url = Option.some resp → resp.Body = Option.none →
        gatherJobInformation w me = Except.error Fatal.bodyRead) ∧
      (∀ resp body, w.Do me.Url = Option.some resp → resp.Body = Option.some body →
        resp.StatusCode ≠ 200 →
        gatherJobInformation w me = Except.error (Fatal.status resp.StatusCode)) ∧
      (∀ resp body, w.Do me.Url = Option.some resp → resp.Body = Option.some body →
        resp.StatusCode = 200 → w.Parse body = Option.none →
        gatherJobInformation w me = Except.error Fatal.htmlParse) ∧
      (∀ resp body root, w.Do me.Url = Option.some resp → resp.Body = Option.some body →
        resp.StatusCode = 200 → w.Parse body = Option.some root →
        w.ParseHTML (RemoveFunc isOk (w.NFKD (w.Render root))) = Option.none →
        gatherJobInformation w me = Except.error Fatal.xmlParse)) := by
  refine ⟨?_, ?_, ?_⟩
  · intro j e hj hfail
    exact handler_fatal worlds Urls sched j e hj
      (hsched.mem_iff.mpr (List.mem_range.mpr hj)) hfail
  · intro f hok
    exact handler_ok worlds Urls sched f hN hsched hok
  · intro w me
    refine ⟨?_, ?_, ?_, ?_, ?_⟩
    · intro h1
      simp [gatherJobInformation, h1]
    · intro resp h1 h2
      simp [gatherJobInformation, h1, h2]
    · intro resp body h1 h2 h3
      simp [gatherJobInformation, h1, h2, h3]
    · intro resp body h1 h2 h3 h4
      simp [gatherJobInformation, h1, h2, h3, h4]
    · intro resp body root h1 h2 h3 h4 h5
      simp [gatherJobInformation, h1, h2, h3, h4, h5]

/-- Witness for C9: of two tasks the second gets a 404 and completes first. -/
theorem task_failure_ends_process_witness :
    1 ≤ ["a", "b"].length ∧ [1, 0].Perm (List.range ["a", "b"].length) ∧
    ∃ e1, getJobsHandler
        (fun i => if i = 1 then notFoundWorld
          else mockWorld (Option.some "T") (Option.some "C") (Option.some "L"))
        (Option.some { Urls := ["a", "b"] }) [1, 0] =
      (List.range ["a", "b"].length, Outcome.exited e1) :=
  ⟨by decide, by decide,
    (task_failure_ends_process
      (fun i => if i = 1 then notFoundWorld
        else mockWorld (Option.some "T") (Option.some "C") (Option.some "L"))
      ["a", "b"] [1, 0] (by decide) (by decide)).1 1 (Fatal.status 404) (by decide) rfl⟩

/-- Counterexample to C9 as stated: the second of two tasks fails in `client.Do`; the
handler returns no results, the process ends in `log.Fatal`. -/
theorem failing_task_aborts_batch :
    getJobsHandler
        (fun i => if i = 1 then deadWorld
          else mockWorld (Option.some "T") (Option.some "C") (Option.some "L"))
        (Option.some { Urls := ["a", "b"] }) [0, 1] =
      ([0, 1], Outcome.exited Fatal.transport) := by
  decide

end JobExtractor
